import Mathlib

/-!
# Verification of `LastNWindowCollectorOp::collect`
  (caffe2/operators/last_n_window_collector.cc)

The operator keeps a circular window of the last `num_to_collect` rows seen
across successive calls, together with a next-write cursor (`NEXT`) and an
optional visited counter (`NUM_VISITED`).  We embed the body of `collect()`
as a pure function on an explicit state, with `CAFFE_ENFORCE` failures
returning an `err` result that carries the state as mutated up to the point
of the failing check (the C++ exception leaves the workspace tensors in
exactly that condition).
-/

namespace LastN

/-- One row of the tensor (a record), flattened to its elements. -/
abbrev Rec := List Int

/-- The `DATA` input tensor of one call: its dims and its rows.
`dims.headD 0` is the row count (`input.sizes()[0]`), `dims.tail` the
per-record shape (`input.dim(i)` for `i ≥ 1`). -/
structure Batch where
  dims : List Nat
  rows : List Rec
deriving Repr, DecidableEq

/-- The collector's persistent state: the in-place tensors
`LAST_N` (record shape `recDims` and rows `window`),
`NEXT` (value `next`, tensor rank `nextNdim`) and
`NUM_VISITED` (value `numVisited`, tensor element count `visitedSize`). -/
structure CState where
  recDims : List Nat
  window : List Rec
  next : Int
  nextNdim : Nat
  numVisited : Int
  visitedSize : Nat
deriving Repr, DecidableEq

/-- `output->size()`: element count of the window tensor. -/
def CState.winSize (st : CState) : Nat := st.window.length * st.recDims.prod

/-- `output_initialized` (lines 39–41): the window tensor has a positive
size.  (The C++ also reinterprets the leading bytes of the buffer as a
pointer and requires it non-null; for the tensors this operator stores that
conjunct has no semantic content, so the model keeps only the size test.) -/
def CState.isInit (st : CState) : Bool := decide (0 < st.winSize)

/-- Lines 43–46: output and input have equal rank and equal dims `1..`. -/
def CState.shapeMatch (st : CState) (b : Batch) : Bool :=
  decide (st.recDims.length + 1 = b.dims.length) && decide (st.recDims = b.dims.tail)

/-- Placeholder contents of a freshly allocated row (`ExtendTo` exposes new
slots without initializing them; the algorithm overwrites them before they
become observable, so any fixed placeholder is a faithful model). -/
def junkRow (rd : List Nat) : Rec := List.replicate rd.prod 0

/-- `output->ExtendTo(n, ...)` (line 86): grow the row list to length `n`,
keeping existing rows and filling new slots with placeholder contents. -/
def extendTo (w : List Rec) (n : Nat) (rd : List Nat) : List Rec :=
  w ++ List.replicate (n - w.length) (junkRow rd)

/-- `context_.CopyItemsSameDevice` on whole rows: write `n` rows of `src`
starting at `srcOff` into `dst` starting at slot `dstOff`. -/
def copyRows (dst src : List Rec) (dstOff srcOff n : Nat) : List Rec :=
  (List.range dst.length).map (fun i =>
    if dstOff ≤ i ∧ i < dstOff + n then src.getD (srcOff + (i - dstOff)) []
    else dst.getD i [])

/-- Which branch of `collect` produced the result: the empty-batch early
return (lines 71–77), the overwrite-all branch for oversized batches
(lines 104–113), or the circular-insertion branch (lines 114–131).
`*next_data` is written exactly on the latter two. -/
inductive CPath where
  | emptyBatch
  | overwriteAll
  | circular
deriving Repr, DecidableEq

/-- Result of one `collect` call: success with the taken path, or a
`CAFFE_ENFORCE` failure carrying the state at the moment of the throw. -/
inductive CResult where
  | ok (st : CState) (path : CPath)
  | err (st : CState)
deriving Repr, DecidableEq

/-- The body of `LastNWindowCollectorOp::collect` (lines 34–132), with
`cap = numToCollect_` and `hasVis = (OutputSize() > NUM_VISITED)`. -/
def collect (cap : Nat) (hasVis : Bool) (st : CState) (input : Batch) : CResult :=
  -- line 38: CAFFE_ENFORCE_GE(input.ndim(), 1)
  if input.dims.length < 1 then .err st else
  -- lines 42–47: shape check against an initialized window
  if st.isInit ∧ ¬ st.shapeMatch input then .err st else
  let num_entries := input.dims.headD 0
  -- lines 51–60: NUM_VISITED bookkeeping
  if hasVis ∧ st.visitedSize ≠ 1 then .err st else
  let st1 := if hasVis ∧ ¬ st.isInit then { st with numVisited := 0 } else st
  if hasVis ∧ st1.numVisited < 0 then .err st1 else
  let st2 :=
    if hasVis then { st1 with numVisited := st1.numVisited + num_entries } else st1
  -- lines 62–69: first-time allocation (Resize to zero rows, pass meta)
  let st3 :=
    if ¬ st.isInit then { st2 with recDims := input.dims.tail, window := [] } else st2
  -- lines 71–77: empty-batch early return (CopyFrom gives shape and meta)
  if num_entries = 0 then
    if ¬ st.isInit then
      .ok { st3 with recDims := input.dims.tail, window := input.rows } .emptyBatch
    else .ok st3 .emptyBatch
  else
  -- lines 79–87: growth to the new occupancy
  let num_to_copy := min num_entries cap
  let output_batch_size := if st.isInit then st.window.length else 0
  let output_num := min cap (output_batch_size + num_to_copy)
  let w1 :=
    if output_batch_size < output_num then extendTo st3.window output_num st3.recDims
    else st3.window
  let st4 := { st3 with window := w1 }
  -- lines 92–98: NEXT cursor checks
  if st.nextNdim ≠ 0 then .err st4 else
  let st5 := if ¬ st.isInit then { st4 with next := 0 } else st4
  if ¬ (st5.next < (w1.length : Int)) then .err st5 else
  if cap < num_entries then
    -- lines 104–113: just copy the last N rows, reset the cursor
    let w2 := copyRows w1 input.rows 0 (num_entries - cap) num_to_copy
    .ok { st5 with window := w2, next := 0 } .overwriteAll
  else
    -- lines 114–129: two-chunk circular insertion.  `start` is the int32
    -- cursor used as an unsigned quantity; every state the operator itself
    -- writes has a non-negative cursor, so `Int.toNat` is exact there.
    let start := st5.next.toNat
    let first_chunk_size := min (num_to_copy + start) cap - start
    let w2 := copyRows w1 input.rows start 0 first_chunk_size
    let w3 := copyRows w2 input.rows 0 first_chunk_size (num_to_copy - first_chunk_size)
    .ok { st5 with window := w3,
                   next := (((start + num_to_copy) % cap : Nat) : Int) } .circular

/-- The documented initial state: empty `LAST_N` buffer, `NEXT` a rank-0
tensor holding 0, `NUM_VISITED` a 1-element tensor holding 0. -/
def initState : CState :=
  { recDims := [], window := [], next := 0, nextNdim := 0,
    numVisited := 0, visitedSize := 1 }

/-- Run `collect` over a sequence of batches, stopping at the first failure. -/
def runBatches (cap : Nat) (hasVis : Bool) (st : CState) : List Batch → CResult
  | [] => .ok st .emptyBatch
  | b :: rest =>
    match collect cap hasVis st b with
    | .ok st' _ => runBatches cap hasVis st' rest
    | .err st' => .err st'

/-- All records offered across a sequence of batches, in arrival order. -/
def allRows : List Batch → List Rec
  | [] => []
  | b :: rest => b.rows ++ allRows rest

/-- The last `min cap l.length` records of `l`. -/
def lastRecords (cap : Nat) (l : List Rec) : List Rec := l.drop (l.length - cap)

/-- A well-formed batch of record shape `sh`: a tensor whose leading
dimension is its row count and whose record dims are `sh`. -/
def Batch.wf (sh : List Nat) (b : Batch) : Prop := b.dims = b.rows.length :: sh

instance (sh : List Nat) (b : Batch) : Decidable (b.wf sh) :=
  decidable_of_iff (b.dims = b.rows.length :: sh) Iff.rfl

/-- The state carried by a `collect`/`runBatches` result. -/
def resultState : CResult → CState
  | .ok st _ => st
  | .err st => st

/-- The reachability invariant: after offering the records `all` (in
order) through well-formed batches of record shape `sh`, the auxiliary
tensors are well-formed, the visited counter equals the number of offered
records, and the window holds either all records so far (below capacity,
cursor equal to the occupancy) or a circular arrangement of the last `cap`
records starting at the cursor. -/
def Good (cap : Nat) (hasVis : Bool) (sh : List Nat) (all : List Rec)
    (st : CState) : Prop :=
  st.nextNdim = 0 ∧
  st.visitedSize = 1 ∧
  (hasVis = true → st.numVisited = (all.length : Int)) ∧
  (all ≠ [] → st.recDims = sh) ∧
  (if all.length < cap then
      st.window = all ∧ st.next = (all.length : Int)
   else
      st.window.length = cap ∧ 0 ≤ st.next ∧ st.next < (cap : Int) ∧
      ∀ j, j < cap → st.window.getD ((st.next.toNat + j) % cap) [] =
        all.getD (all.length - cap + j) [])

/-! ## Basic lemmas about the storage primitives -/

theorem length_copyRows (dst src : List Rec) (a b n : Nat) :
    (copyRows dst src a b n).length = dst.length := by
  simp [copyRows]

theorem getD_copyRows (dst src : List Rec) (a b n i : Nat) :
    (copyRows dst src a b n).getD i [] =
      if i < dst.length then
        (if a ≤ i ∧ i < a + n then src.getD (b + (i - a)) [] else dst.getD i [])
      else [] := by
  unfold copyRows
  rcases Nat.lt_or_ge i dst.length with h | h
  · rw [List.getD_eq_getElem _ _ (by simpa using h)]
    rw [List.getElem_map, List.getElem_range]
    simp [h]
  · rw [List.getD_eq_default _ _ (by simpa using h)]
    simp [Nat.not_lt.mpr h]

theorem length_extendTo (w : List Rec) (n : Nat) (rd : List Nat) :
    (extendTo w n rd).length = max w.length n := by
  simp [extendTo]; omega

theorem getD_extendTo (w : List Rec) (n : Nat) (rd : List Nat) (i : Nat) :
    (extendTo w n rd).getD i [] =
      if i < w.length then w.getD i []
      else if i < n then junkRow rd else [] := by
  unfold extendTo
  rcases Nat.lt_or_ge i w.length with h | h
  · rw [List.getD_append _ _ _ _ h]
    simp [h]
  · rw [List.getD_append_right _ _ _ _ h]
    rcases Nat.lt_or_ge i n with h2 | h2
    · rw [List.getD_eq_getElem _ _ (by simp; omega)]
      simp [Nat.not_lt.mpr h, h2, List.getElem_replicate]
    · rw [List.getD_eq_default _ _ (by simp; omega), if_neg (by omega), if_neg (by omega)]

theorem ext_len_getD {l₁ l₂ : List Rec} (hl : l₁.length = l₂.length)
    (h : ∀ i, i < l₁.length → l₁.getD i [] = l₂.getD i []) : l₁ = l₂ := by
  apply List.ext_get hl
  intro n h1 h2
  have := h n h1
  rwa [List.getD_eq_getElem _ _ h1, List.getD_eq_getElem _ _ h2] at this

theorem mod_two_cases (a cap : Nat) (hcap : 0 < cap) (h : a < 2 * cap) :
    a % cap = if a < cap then a else a - cap := by
  split
  · exact Nat.mod_eq_of_lt (by assumption)
  · rw [Nat.mod_eq_sub_mod (by omega)]
    exact Nat.mod_eq_of_lt (by omega)

/-! ## Facts about the reachability invariant -/

theorem good_initState (cap : Nat) (hasVis : Bool) (sh : List Nat)
    (hcap : 0 < cap) : Good cap hasVis sh [] initState := by
  simp [Good, initState, hcap]

theorem good_window_length {cap hasVis sh all st} (hcap : 0 < cap)
    (hG : Good cap hasVis sh all st) :
    st.window.length = min cap all.length := by
  obtain ⟨-, -, -, -, hw⟩ := hG
  by_cases h : all.length < cap
  · rw [if_pos h] at hw
    rw [hw.1]; omega
  · rw [if_neg h] at hw
    rw [hw.1]; omega

theorem good_isInit_false {cap hasVis sh all st} (hcap : 0 < cap)
    (hG : Good cap hasVis sh all st) (hall : all = []) :
    st.isInit = false := by
  obtain ⟨-, -, -, -, hw⟩ := hG
  subst hall
  rw [if_pos (by simpa using hcap)] at hw
  simp [CState.isInit, CState.winSize, hw.1]

theorem good_isInit_true {cap hasVis sh all st} (hcap : 0 < cap)
    (hsh : 0 < sh.prod) (hG : Good cap hasVis sh all st) (hall : all ≠ []) :
    st.isInit = true := by
  obtain ⟨-, -, -, hsh', hw⟩ := hG
  have hlen : 0 < st.window.length := by
    by_cases h : all.length < cap
    · rw [if_pos h] at hw
      rw [hw.1]
      cases all with
      | nil => exact absurd rfl hall
      | cons a l => simp
    · rw [if_neg h] at hw
      omega
  simp only [CState.isInit, CState.winSize, hsh' hall, decide_eq_true_eq]
  exact Nat.mul_pos hlen hsh

theorem good_shapeMatch {cap hasVis sh all st} {b : Batch}
    (hG : Good cap hasVis sh all st) (hall : all ≠ []) (hwf : b.wf sh) :
    st.shapeMatch b = true := by
  obtain ⟨-, -, -, hsh', -⟩ := hG
  have hd : b.dims = b.rows.length :: sh := hwf
  simp [CState.shapeMatch, hsh' hall, hd]

/-! ## Evaluation of `collect` on each branch, from a reachable state -/

theorem collect_empty_eval {cap hasVis sh all st} {b : Batch}
    (hcap : 0 < cap) (hsh : 0 < sh.prod)
    (hG : Good cap hasVis sh all st) (hwf : b.wf sh) (hb : b.rows = []) :
    collect cap hasVis st b = .ok { st with recDims := sh } .emptyBatch := by
  have hd : b.dims = b.rows.length :: sh := hwf
  rw [hb] at hd
  have hInitF := fun h => good_isInit_false hcap hG h
  have hInitT := fun h => good_isInit_true hcap hsh hG h
  have hshape := fun h => good_shapeMatch hG h hwf
  obtain ⟨h0, h1, h2, h3, hw⟩ := hG
  by_cases hall : all = []
  · have hInit := hInitF hall
    have hwin : st.window = [] := by
      subst hall
      rw [if_pos (by simpa using hcap)] at hw
      exact hw.1
    obtain ⟨rd, w, nx, nn, nv, vs⟩ := st
    simp only at hInit h1 h2 h3 hwin
    subst hwin h1
    cases hasVis with
    | false => simp [collect, hd, hInit, hb]
    | true =>
      have hv : nv = 0 := by
        have := h2 rfl
        subst hall
        simpa using this
      subst hv
      simp [collect, hd, hInit, hb]
  · have hInit := hInitT hall
    have hsm := hshape hall
    have hrd := h3 hall
    obtain ⟨rd, w, nx, nn, nv, vs⟩ := st
    simp only at hInit h1 h2 hrd hsm
    subst h1 hrd
    cases hasVis with
    | false => simp [collect, hd, hInit, hsm]
    | true =>
      have hv : (0 : Int) ≤ nv := by
        have := h2 rfl
        simp only at this
        rw [this]
        positivity
      simp [collect, hd, hInit, hsm, Int.not_lt.mpr hv]

theorem getD_drop (l : List Rec) (n i : Nat) :
    (l.drop n).getD i [] = l.getD (n + i) [] := by
  simp [List.getD_eq_getElem?_getD, List.getElem?_drop]

theorem copyRows_all (w1 rows : List Rec) (s : Nat)
    (h1 : w1.length + s = rows.length) :
    copyRows w1 rows 0 s w1.length = rows.drop s := by
  apply ext_len_getD
  · rw [length_copyRows, List.length_drop]
    omega
  · intro i hi
    rw [length_copyRows] at hi
    rw [getD_copyRows, getD_drop, if_pos hi, if_pos (by omega)]
    simp

/-- Lines 104–113 from a reachable state: a batch strictly larger than the
capacity overwrites the whole window with the batch's last `cap` rows and
resets the cursor to 0. -/
theorem collect_oversized_eval {cap hasVis sh all st} {b : Batch}
    (hcap : 0 < cap) (hsh : 0 < sh.prod)
    (hG : Good cap hasVis sh all st) (hwf : b.wf sh)
    (hlen : cap < b.rows.length) :
    collect cap hasVis st b =
      .ok { st with recDims := sh,
                    window := b.rows.drop (b.rows.length - cap),
                    next := 0,
                    numVisited := if hasVis
                      then ((all.length + b.rows.length : Nat) : Int)
                      else st.numVisited } .overwriteAll := by
  have hd : b.dims = b.rows.length :: sh := hwf
  have hmin : min b.rows.length cap = cap := by omega
  have hne : b.rows ≠ [] := List.ne_nil_of_length_pos (by omega)
  have hInitF := fun h => good_isInit_false hcap hG h
  have hInitT := fun h => good_isInit_true hcap hsh hG h
  have hshape := fun h => good_shapeMatch hG h hwf
  have hwl := good_window_length hcap hG
  obtain ⟨h0, h1, h2, h3, hw⟩ := hG
  by_cases hall : all = []
  · have hInit := hInitF hall
    have hwin : st.window = [] := by
      subst hall
      rw [if_pos (by simpa using hcap)] at hw
      exact hw.1
    have hcopy := copyRows_all (extendTo [] cap sh) b.rows (b.rows.length - cap)
      (by rw [length_extendTo]; simp; omega)
    rw [length_extendTo] at hcopy
    simp only [List.length_nil, Nat.zero_max] at hcopy
    obtain ⟨rd, w, nx, nn, nv, vs⟩ := st
    simp only at hInit h0 h1 h2 h3 hwin
    subst hwin h0 h1
    cases hasVis with
    | false =>
      simp [collect, hd, hInit, hmin, hcap, hne, hlen, length_extendTo, hcopy]
    | true =>
      have hv : nv = 0 := by
        have := h2 rfl
        subst hall
        simpa using this
      subst hv hall
      simp [collect, hd, hInit, hmin, hcap, hne, hlen, length_extendTo, hcopy]
  · have hInit := hInitT hall
    have hsm := hshape hall
    have hrd := h3 hall
    have hnx : 0 ≤ st.next ∧ st.next < (cap : Int) := by
      by_cases h : all.length < cap
      · rw [if_pos h] at hw
        rw [hw.2]
        constructor
        · positivity
        · exact_mod_cast h
      · rw [if_neg h] at hw
        exact ⟨hw.2.1, hw.2.2.1⟩
    by_cases hfull : all.length < cap
    -- partial window: grown to cap, then fully overwritten
    · have hobs : st.window.length = all.length := by omega
      have hcopy := copyRows_all (extendTo st.window cap sh) b.rows
        (b.rows.length - cap) (by rw [length_extendTo]; omega)
      rw [length_extendTo, hobs, Nat.max_eq_right (by omega)] at hcopy
      have hmax : max st.window.length cap = cap := by omega
      have hle : ¬ ((cap : Int) ≤ st.next) := by omega
      obtain ⟨rd, w, nx, nn, nv, vs⟩ := st
      simp only at hInit h0 h1 h2 hrd hsm hnx hobs hcopy hmax hle
      subst h0 h1 hrd
      cases hasVis with
      | false =>
        simp [collect, hd, hInit, hsm, hmin, hne, hlen, hcap, hobs, hfull,
          length_extendTo, hmax, hle, hcopy]
      | true =>
        have hv : nv = (all.length : Int) := h2 rfl
        subst hv
        have hnneg : ¬ ((all.length : Int) < 0) := by omega
        simp [collect, hd, hInit, hsm, hmin, hne, hlen, hcap, hobs, hfull,
          length_extendTo, hmax, hle, hnneg, hcopy]
    -- full window: no growth, fully overwritten
    · have hobs : st.window.length = cap := by omega
      have hcopy := copyRows_all st.window b.rows (b.rows.length - cap) (by omega)
      rw [hobs] at hcopy
      have hle : ¬ ((cap : Int) ≤ st.next) := by omega
      obtain ⟨rd, w, nx, nn, nv, vs⟩ := st
      simp only at hInit h0 h1 h2 hrd hsm hnx hobs hcopy hle
      subst h0 h1 hrd
      cases hasVis with
      | false =>
        simp [collect, hd, hInit, hsm, hmin, hne, hlen, hcap, hobs, hfull,
          hle, hcopy]
      | true =>
        have hv : nv = (all.length : Int) := h2 rfl
        subst hv
        have hnneg : ¬ ((all.length : Int) < 0) := by omega
        simp [collect, hd, hInit, hsm, hmin, hne, hlen, hcap, hobs, hfull,
          hle, hnneg, hcopy]

theorem extendTo_self (w : List Rec) (n : Nat) (rd : List Nat)
    (h : n ≤ w.length) : extendTo w n rd = w := by
  simp [extendTo, Nat.sub_eq_zero_of_le h]

/-- Lines 114–129 from a reachable state: a non-empty batch of at most
`cap` rows is inserted as two chunks at the cursor, which then advances by
the batch length modulo `cap`. -/
theorem collect_circular_eval {cap hasVis sh all st} {b : Batch}
    (hcap : 0 < cap) (hsh : 0 < sh.prod)
    (hG : Good cap hasVis sh all st) (hwf : b.wf sh)
    (hne : b.rows ≠ []) (hlen : b.rows.length ≤ cap) :
    collect cap hasVis st b =
      .ok { st with
        recDims := sh,
        window :=
          copyRows
            (copyRows (extendTo st.window (min cap (min cap all.length + b.rows.length)) sh)
              b.rows st.next.toNat 0
              (min (b.rows.length + st.next.toNat) cap - st.next.toNat))
            b.rows 0 (min (b.rows.length + st.next.toNat) cap - st.next.toNat)
            (b.rows.length - (min (b.rows.length + st.next.toNat) cap - st.next.toNat)),
        next := (((st.next.toNat + b.rows.length) % cap : Nat) : Int),
        numVisited := if hasVis then ((all.length + b.rows.length : Nat) : Int)
                      else st.numVisited } .circular := by
  have hd : b.dims = b.rows.length :: sh := hwf
  have hntc : min b.rows.length cap = b.rows.length := by omega
  have hnlt : ¬ (cap < b.rows.length) := by omega
  have hlpos : 0 < b.rows.length := List.length_pos.mpr hne
  have hInitF := fun h => good_isInit_false hcap hG h
  have hInitT := fun h => good_isInit_true hcap hsh hG h
  have hshape := fun h => good_shapeMatch hG h hwf
  have hwl := good_window_length hcap hG
  obtain ⟨h0, h1, h2, h3, hw⟩ := hG
  by_cases hall : all = []
  · have hInit := hInitF hall
    have hwin : st.window = [] := by
      subst hall
      rw [if_pos (by simpa using hcap)] at hw
      exact hw.1
    have hnx0 : st.next = 0 := by
      subst hall
      rw [if_pos (by simpa using hcap)] at hw
      simpa using hw.2
    have hA : min cap b.rows.length = b.rows.length := by omega
    have hne0 : ¬ b.rows.length = 0 := by omega
    obtain ⟨rd, w, nx, nn, nv, vs⟩ := st
    simp only at hInit h0 h1 h2 h3 hwin hnx0
    subst hwin h0 h1 hnx0 hall
    cases hasVis with
    | false =>
      simp [collect, hd, hInit, hne, hnlt, hntc, hlpos, length_extendTo, hA, hne0]
    | true =>
      have hv : nv = 0 := by simpa using h2 rfl
      subst hv
      simp [collect, hd, hInit, hne, hnlt, hntc, hlpos, length_extendTo, hA, hne0]
  · have hInit := hInitT hall
    have hsm := hshape hall
    have hrd := h3 hall
    by_cases hfull : all.length < cap
    -- partially filled window
    · have hobs : st.window.length = all.length := by omega
      have hminall : min cap all.length = all.length := by omega
      have hnx : st.next = (all.length : Int) := by
        rw [if_pos hfull] at hw
        exact hw.2
      have hgt : all.length < min cap (all.length + b.rows.length) := by omega
      have hle : ¬ ((min cap (all.length + b.rows.length) : Int)
          ≤ (all.length : Int)) := by
        push_cast
        omega
      obtain ⟨rd, w, nx, nn, nv, vs⟩ := st
      simp only at hInit h0 h1 h2 hrd hsm hobs hnx
      subst h0 h1 hrd hnx
      cases hasVis with
      | false =>
        simp [collect, hd, hInit, hsm, hne, hnlt, hntc, hlpos, hobs, hminall,
          length_extendTo, hgt, hle, Int.toNat_ofNat]
      | true =>
        have hv : nv = (all.length : Int) := h2 rfl
        subst hv
        have hnneg : ¬ ((all.length : Int) < 0) := by omega
        simp [collect, hd, hInit, hsm, hne, hnlt, hntc, hlpos, hobs, hminall,
          length_extendTo, hgt, hle, hnneg, Int.toNat_ofNat]
    -- full window
    · have hobs : st.window.length = cap := by omega
      have hminall : min cap all.length = cap := by omega
      have hnx : 0 ≤ st.next ∧ st.next < (cap : Int) := by
        rw [if_neg hfull] at hw
        exact ⟨hw.2.1, hw.2.2.1⟩
      have hon : min cap (cap + b.rows.length) = cap := by omega
      have hext : extendTo st.window cap sh = st.window :=
        extendTo_self _ _ _ (by omega)
      have hle : ¬ ((cap : Int) ≤ st.next) := by omega
      have hng : ¬ (st.window.length < min cap (st.window.length + b.rows.length)) := by
        omega
      obtain ⟨rd, w, nx, nn, nv, vs⟩ := st
      simp only at hInit h0 h1 h2 hrd hsm hobs hnx hext hle hng
      subst h0 h1 hrd
      cases hasVis with
      | false =>
        simp [collect, hd, hInit, hsm, hne, hnlt, hntc, hlpos, hobs, hminall,
          hon, hext, hle, hng]
      | true =>
        have hv : nv = (all.length : Int) := h2 rfl
        subst hv
        have hnneg : ¬ ((all.length : Int) < 0) := by omega
        simp [collect, hd, hInit, hsm, hne, hnlt, hntc, hlpos, hobs, hminall,
          hon, hext, hle, hng, hnneg]

/-! ## Window layout after one circular insertion -/

theorem window_fill (all rows : List Rec) (sh : List Nat)
    (hm : 0 < rows.length) :
    copyRows (copyRows (extendTo all (all.length + rows.length) sh)
        rows all.length 0 rows.length) rows 0 rows.length 0
      = all ++ rows := by
  apply ext_len_getD
  · rw [length_copyRows, length_copyRows, length_extendTo, List.length_append]
    omega
  · intro i hi
    rw [length_copyRows, length_copyRows, length_extendTo] at hi
    have hi' : i < all.length + rows.length := by omega
    rw [getD_copyRows, length_copyRows, length_extendTo,
      if_pos (by omega), if_neg (by omega), getD_copyRows, length_extendTo,
      if_pos (by omega)]
    rcases Nat.lt_or_ge i all.length with h | h
    · rw [if_neg (by omega), getD_extendTo, if_pos h, List.getD_append _ _ _ _ h]
    · rw [if_pos (by omega), List.getD_append_right _ _ _ _ h]
      simp

theorem window_partial_wrap_getD (all rows : List Rec) (sh : List Nat)
    (cap j : Nat) (hcap : 0 < cap) (hT : all.length < cap)
    (hm : rows.length ≤ cap) (hov : cap ≤ all.length + rows.length)
    (hj : j < cap) :
    (copyRows (copyRows (extendTo all cap sh) rows all.length 0 (cap - all.length))
        rows 0 (cap - all.length) (rows.length - (cap - all.length))).getD
      (((all.length + rows.length - cap) + j) % cap) []
    = (all ++ rows).getD (all.length + rows.length - cap + j) [] := by
  set T := all.length with hTdef
  set m := rows.length with hmdef
  set c' := T + m - cap with hc'def
  have hc' : c' < cap := by omega
  have ht2 : c' + j < 2 * cap := by omega
  rw [mod_two_cases _ _ hcap ht2]
  have hlen1 : (copyRows (extendTo all cap sh) rows T 0 (cap - T)).length = cap := by
    rw [length_copyRows, length_extendTo]; omega
  by_cases hcase : c' + j < cap
  · rw [if_pos hcase]
    rcases Nat.lt_or_ge (c' + j) T with hlt | hge
    -- surviving old record, physical slot c' + j < T
    · rw [getD_copyRows, hlen1, if_pos (by omega), if_neg (by omega),
        getD_copyRows, length_extendTo, if_pos (by omega), if_neg (by omega),
        getD_extendTo, if_pos hlt, List.getD_append _ _ _ _ (by omega)]
    -- new record landing in the first chunk
    · rw [getD_copyRows, hlen1, if_pos (by omega), if_neg (by omega),
        getD_copyRows, length_extendTo, if_pos (by omega), if_pos (by omega),
        List.getD_append_right _ _ _ _ (by omega)]
      congr 1
      omega
  · rw [if_neg hcase]
    -- new record landing in the wraparound chunk
    rw [getD_copyRows, hlen1, if_pos (by omega), if_pos (by omega),
      List.getD_append_right _ _ _ _ (by omega)]
    congr 1
    omega

theorem window_full_wrap_getD (w all rows : List Rec) (cap c j : Nat)
    (hcap : 0 < cap) (hwlen : w.length = cap) (hc : c < cap)
    (hT : cap ≤ all.length) (hm : rows.length ≤ cap) (hmpos : 0 < rows.length)
    (Hw : ∀ j', j' < cap →
      w.getD ((c + j') % cap) [] = all.getD (all.length - cap + j') [])
    (hj : j < cap) :
    (copyRows (copyRows w rows c 0 (min (rows.length + c) cap - c))
        rows 0 (min (rows.length + c) cap - c)
        (rows.length - (min (rows.length + c) cap - c))).getD
      ((((c + rows.length) % cap) + j) % cap) []
    = (all ++ rows).getD (all.length + rows.length - cap + j) [] := by
  set T := all.length with hTdef
  set m := rows.length with hmdef
  set fc := min (m + c) cap - c with hfcdef
  have hfc1 : fc ≤ m := by omega
  have hfc2 : c + fc ≤ cap := by omega
  have hmfc : m - fc ≤ c := by
    rcases Nat.lt_or_ge (m + c) cap with h | h
    · have : fc = m := by omega
      omega
    · have : fc = cap - c := by omega
      omega
  have hkey : (((c + m) % cap) + j) % cap = (c + m + j) % cap := by
    rw [Nat.mod_add_mod]
  rw [hkey]
  have hlen1 : (copyRows w rows c 0 fc).length = cap := by
    rw [length_copyRows, hwlen]
  have htlt : (c + m + j) % cap < cap := Nat.mod_lt _ hcap
  rcases Nat.lt_or_ge (m + j) cap with hold | hnew
  -- a record from `all` survives in this slot
  · have hidx : T + m - cap + j = T - cap + (m + j) := by omega
    rw [hidx, List.getD_append _ _ _ _ (by omega)]
    have hw' := Hw (m + j) hold
    have hw'' : w.getD ((c + m + j) % cap) [] = all.getD (T - cap + (m + j)) [] := by
      rw [← hw']
      congr 2
      omega
    rw [← hw'']
    have ht2 : c + m + j < 2 * cap := by omega
    have hmod := mod_two_cases (c + m + j) cap hcap ht2
    rw [getD_copyRows, hlen1, if_pos htlt, if_neg ?side1, getD_copyRows, hwlen,
      if_pos htlt, if_neg ?side2]
    case side1 =>
      rcases Nat.lt_or_ge (c + m + j) cap with hv | hv
      · rw [hmod, if_pos hv]
        omega
      · rw [hmod, if_neg (by omega)]
        omega
    case side2 =>
      rcases Nat.lt_or_ge (c + m + j) cap with hv | hv
      · rw [hmod, if_pos hv]
        omega
      · rw [hmod, if_neg (by omega)]
        omega
  -- a record from `rows` occupies this slot
  · have hidx : T + m - cap + j = T + (m + j - cap) := by omega
    rw [hidx, List.getD_append_right _ _ _ _ (by omega)]
    have hsub : T + (m + j - cap) - T = m + j - cap := by omega
    rw [hsub]
    have hshift : (c + m + j) % cap = (c + (m + j - cap)) % cap := by
      have : c + m + j = (c + (m + j - cap)) + cap := by omega
      rw [this, Nat.add_mod_right]
    set k := m + j - cap with hkdef
    have hk : k < m := by omega
    rw [hshift]
    have ht2 : c + k < 2 * cap := by omega
    have hmod := mod_two_cases (c + k) cap hcap ht2
    have hklt : (c + k) % cap < cap := Nat.mod_lt _ hcap
    rcases Nat.lt_or_ge (c + k) cap with hck | hck
    -- lands in the first chunk
    · have hfcm : k < fc := by
        rcases Nat.lt_or_ge (m + c) cap with h | h
        · have : fc = m := by omega
          omega
        · have : fc = cap - c := by omega
          omega
      rw [getD_copyRows, hlen1, if_pos hklt, if_neg (by rw [hmod, if_pos hck]; omega),
        getD_copyRows, hwlen, if_pos hklt, if_pos (by rw [hmod, if_pos hck]; omega)]
      rw [hmod, if_pos hck]
      congr 1
      omega
    -- lands in the wraparound chunk
    · have hfcc : fc = cap - c := by
        rcases Nat.lt_or_ge (m + c) cap with h | h
        · omega
        · omega
      rw [getD_copyRows, hlen1, if_pos hklt, if_pos ?inrange]
      case inrange =>
        rw [hmod, if_neg (by omega)]
        omega
      rw [hmod, if_neg (by omega)]
      congr 1
      omega

/-! ## Preservation of the invariant by one `collect` call -/

theorem good_step_empty {cap hasVis sh all st} {b : Batch}
    (hcap : 0 < cap) (hsh : 0 < sh.prod)
    (hG : Good cap hasVis sh all st) (hwf : b.wf sh) (hb : b.rows = []) :
    ∃ st' p, collect cap hasVis st b = .ok st' p ∧
      Good cap hasVis sh (all ++ b.rows) st' := by
  refine ⟨_, _, collect_empty_eval hcap hsh hG hwf hb, ?_⟩
  rw [hb, List.append_nil]
  obtain ⟨h0, h1, h2, h3, hw⟩ := hG
  exact ⟨h0, h1, h2, fun _ => rfl, hw⟩

theorem good_step_oversized {cap hasVis sh all st} {b : Batch}
    (hcap : 0 < cap) (hsh : 0 < sh.prod)
    (hG : Good cap hasVis sh all st) (hwf : b.wf sh)
    (hlen : cap < b.rows.length) :
    ∃ st' p, collect cap hasVis st b = .ok st' p ∧
      Good cap hasVis sh (all ++ b.rows) st' := by
  refine ⟨_, _, collect_oversized_eval hcap hsh hG hwf hlen, ?_⟩
  obtain ⟨h0, h1, h2, h3, hw⟩ := hG
  refine ⟨h0, h1, ?_, fun _ => rfl, ?_⟩
  · intro hv
    simp [hv]
  · rw [if_neg (by simp; omega)]
    refine ⟨by simp; omega, le_refl 0, by show (0 : Int) < (cap : Int); omega, ?_⟩
    intro j hj
    simp only [Int.toNat_zero, Nat.zero_add, Nat.mod_eq_of_lt hj]
    rw [getD_drop, List.length_append,
      List.getD_append_right _ _ _ _ (by omega)]
    congr 1
    omega

theorem good_step_circular {cap hasVis sh all st} {b : Batch}
    (hcap : 0 < cap) (hsh : 0 < sh.prod)
    (hG : Good cap hasVis sh all st) (hwf : b.wf sh)
    (hne : b.rows ≠ []) (hlen : b.rows.length ≤ cap) :
    ∃ st' p, collect cap hasVis st b = .ok st' p ∧
      Good cap hasVis sh (all ++ b.rows) st' := by
  refine ⟨_, _, collect_circular_eval hcap hsh hG hwf hne hlen, ?_⟩
  have hm : 0 < b.rows.length := List.length_pos.mpr hne
  obtain ⟨h0, h1, h2, h3, hw⟩ := hG
  dsimp only [Good]
  by_cases hfull : all.length < cap
  · -- the pre-state window is below capacity
    rw [if_pos hfull] at hw
    obtain ⟨hwin, hnx⟩ := hw
    have htn : st.next.toNat = all.length := by rw [hnx]; omega
    have hminT : min cap all.length = all.length := by omega
    rcases Nat.lt_or_ge (all.length + b.rows.length) cap with hab | hab
    -- still below capacity afterwards: the window is `all ++ rows`
    · have hwineq :
          copyRows
            (copyRows (extendTo st.window (min cap (min cap all.length + b.rows.length)) sh)
              b.rows st.next.toNat 0
              (min (b.rows.length + st.next.toNat) cap - st.next.toNat))
            b.rows 0 (min (b.rows.length + st.next.toNat) cap - st.next.toNat)
            (b.rows.length - (min (b.rows.length + st.next.toNat) cap - st.next.toNat))
          = all ++ b.rows := by
        rw [htn, hwin, hminT,
          show min cap (all.length + b.rows.length) = all.length + b.rows.length
            from by omega,
          show min (b.rows.length + all.length) cap - all.length = b.rows.length
            from by omega,
          Nat.sub_self]
        exact window_fill all b.rows sh hm
      refine ⟨h0, h1, ?_, fun _ => rfl, ?_⟩
      · intro hv
        simp [hv]
      · rw [if_pos (by simp; omega)]
        refine ⟨hwineq, ?_⟩
        rw [htn, Nat.mod_eq_of_lt (by omega)]
        simp
    -- reaches (or already at) capacity afterwards
    · have hfc : min (b.rows.length + st.next.toNat) cap - st.next.toNat
          = cap - all.length := by rw [htn]; omega
      have hon : min cap (min cap all.length + b.rows.length) = cap := by
        rw [hminT]; omega
      have hmod : (st.next.toNat + b.rows.length) % cap
          = all.length + b.rows.length - cap := by
        rw [htn, mod_two_cases _ _ hcap (by omega)]
        rcases Nat.lt_or_ge (all.length + b.rows.length) cap with h | h
        · omega
        · rw [if_neg (by omega)]
      refine ⟨h0, h1, ?_, fun _ => rfl, ?_⟩
      · intro hv
        simp [hv]
      · rw [if_neg (by simp; omega)]
        refine ⟨?_, by positivity, ?_, ?_⟩
        · rw [length_copyRows, length_copyRows, length_extendTo, hon, hwin]
          omega
        · rw [hmod]
          show ((all.length + b.rows.length - cap : Nat) : Int) < (cap : Int)
          omega
        · intro j hj
          rw [hmod]
          have htn2 : ((all.length + b.rows.length - cap : Nat) : Int).toNat
              = all.length + b.rows.length - cap := by omega
          rw [htn2, hon, hfc, htn, hwin, List.length_append]
          exact window_partial_wrap_getD all b.rows sh cap j hcap hfull hlen
            (by omega) hj
  · -- the pre-state window is already full
    rw [if_neg hfull] at hw
    obtain ⟨hwl, hge0, hlt, Hw⟩ := hw
    have hc : st.next.toNat < cap := by omega
    have hminT : min cap all.length = cap := by omega
    have hon : min cap (cap + b.rows.length) = cap := by omega
    have hext : extendTo st.window cap sh = st.window :=
      extendTo_self _ _ _ (by omega)
    refine ⟨h0, h1, ?_, fun _ => rfl, ?_⟩
    · intro hv
      simp [hv]
    · rw [if_neg (by simp; omega)]
      have hmlt : (st.next.toNat + b.rows.length) % cap < cap := Nat.mod_lt _ hcap
      refine ⟨?_, by positivity, ?_, ?_⟩
      · rw [length_copyRows, length_copyRows, length_extendTo, hminT, hon, hwl]
        omega
      · show (((st.next.toNat + b.rows.length) % cap : Nat) : Int) < (cap : Int)
        omega
      · intro j hj
        have htn2 : (((st.next.toNat + b.rows.length) % cap : Nat) : Int).toNat
            = (st.next.toNat + b.rows.length) % cap := by omega
        rw [htn2, hminT, hon, hext, List.length_append]
        exact window_full_wrap_getD st.window all b.rows cap st.next.toNat j
          hcap hwl hc (by omega) hlen hm Hw hj

theorem good_step {cap hasVis sh all st} {b : Batch}
    (hcap : 0 < cap) (hsh : 0 < sh.prod)
    (hG : Good cap hasVis sh all st) (hwf : b.wf sh) :
    ∃ st' p, collect cap hasVis st b = .ok st' p ∧
      Good cap hasVis sh (all ++ b.rows) st' := by
  rcases eq_or_ne b.rows ([] : List Rec) with hb | hb
  · exact good_step_empty hcap hsh hG hwf hb
  · rcases Nat.lt_or_ge cap b.rows.length with h | h
    · exact good_step_oversized hcap hsh hG hwf h
    · exact good_step_circular hcap hsh hG hwf hb h

theorem run_good {cap : Nat} {hasVis : Bool} {sh : List Nat}
    (hcap : 0 < cap) (hsh : 0 < sh.prod) :
    ∀ (bs : List Batch) (st : CState) (all : List Rec),
      Good cap hasVis sh all st → (∀ b ∈ bs, b.wf sh) →
      ∃ st' p, runBatches cap hasVis st bs = .ok st' p ∧
        Good cap hasVis sh (all ++ allRows bs) st' := by
  intro bs
  induction bs with
  | nil =>
    intro st all hG _
    exact ⟨st, .emptyBatch, rfl, by simpa [allRows] using hG⟩
  | cons b rest ih =>
    intro st all hG hwf
    obtain ⟨st1, p1, hc, hG1⟩ := good_step hcap hsh hG (hwf b (by simp))
    obtain ⟨st', p', hr, hG'⟩ :=
      ih st1 (all ++ b.rows) hG1 (fun x hx => hwf x (by simp [hx]))
    refine ⟨st', p', ?_, ?_⟩
    · simp [runBatches, hc, hr]
    · rw [allRows, ← List.append_assoc]
      exact hG'

/-- Any successful run from the documented initial state lands in a state
satisfying the invariant for the records offered so far. -/
theorem run_ok_good {cap : Nat} {hasVis : Bool} {sh : List Nat}
    {bs : List Batch} {st : CState} {p : CPath}
    (hcap : 0 < cap) (hsh : 0 < sh.prod) (hwf : ∀ b ∈ bs, b.wf sh)
    (h : runBatches cap hasVis initState bs = .ok st p) :
    Good cap hasVis sh (allRows bs) st := by
  obtain ⟨st', p', h', hG⟩ :=
    run_good hcap hsh bs initState [] (good_initState cap hasVis sh hcap) hwf
  rw [h] at h'
  obtain ⟨rfl, -⟩ := CResult.ok.inj h'.symm
  simpa using hG

/-! ## Further helpers for the claim theorems -/

theorem allRows_append (xs ys : List Batch) :
    allRows (xs ++ ys) = allRows xs ++ allRows ys := by
  induction xs with
  | nil => simp [allRows]
  | cons x xs ih => simp [allRows, ih]

theorem getD_rotate (l : List Rec) (n s : Nat) (hs : s < l.length) :
    (l.rotate n).getD s [] = l.getD ((s + n) % l.length) [] := by
  have h1 : s < (l.rotate n).length := by rwa [List.length_rotate]
  rw [List.getD_eq_getElem _ _ h1,
    List.getD_eq_getElem _ _ (Nat.mod_lt _ (by omega)),
    List.getElem_rotate]

/-- When the window is full, its physical contents are a rotation of the
last `cap` offered records. -/
theorem good_full_rotate {cap hasVis sh all st} (hcap : 0 < cap)
    (hG : Good cap hasVis sh all st) (hT : cap ≤ all.length) :
    st.window = (all.drop (all.length - cap)).rotate (cap - st.next.toNat) := by
  obtain ⟨-, -, -, -, hw⟩ := hG
  rw [if_neg (by omega)] at hw
  obtain ⟨hwl, hge0, hlt, Hw⟩ := hw
  have hc : st.next.toNat < cap := by omega
  have hdl : (all.drop (all.length - cap)).length = cap := by
    rw [List.length_drop]
    omega
  apply ext_len_getD
  · rw [hwl, List.length_rotate, hdl]
  · intro s hs
    rw [hwl] at hs
    rw [getD_rotate _ _ _ (by omega), hdl]
    have hj : (s + (cap - st.next.toNat)) % cap < cap := Nat.mod_lt _ hcap
    have hback : (st.next.toNat + (s + (cap - st.next.toNat)) % cap) % cap = s := by
      rw [Nat.add_mod_mod,
        show st.next.toNat + (s + (cap - st.next.toNat)) = s + cap from by omega,
        Nat.add_mod_right, Nat.mod_eq_of_lt hs]
    have := Hw ((s + (cap - st.next.toNat)) % cap) hj
    rw [hback] at this
    rw [this, getD_drop]

/-! ## The claims -/

/-- C1: for every positive capacity and every successful sequence of
well-formed batches of a fixed record shape, the multiset of records stored
in the window equals exactly the last `min cap T` records offered in
arrival order, where `T` is the total number of records offered. -/
theorem C1_window_content {cap : Nat} {hasVis : Bool} {sh : List Nat}
    {bs : List Batch} {st : CState} {p : CPath}
    (hcap : 0 < cap) (hsh : 0 < sh.prod) (hwf : ∀ b ∈ bs, b.wf sh)
    (h : runBatches cap hasVis initState bs = .ok st p) :
    (st.window : Multiset Rec) = (lastRecords cap (allRows bs) : Multiset Rec) := by
  have hG := run_ok_good hcap hsh hwf h
  rcases Nat.lt_or_ge (allRows bs).length cap with hT | hT
  · have hw := hG.2.2.2.2
    rw [if_pos hT] at hw
    rw [hw.1, lastRecords, Nat.sub_eq_zero_of_le (by omega), List.drop_zero]
  · rw [good_full_rotate hcap hG hT, lastRecords]
    exact Multiset.coe_eq_coe.mpr (List.rotate_perm _ _)

/-- C1 witness: a concrete two-batch run at capacity 2. -/
theorem C1_window_content_witness :
    (((⟨[], [[7], [6]], 1, 0, 0, 1⟩ : CState).window : Multiset Rec)
      = (lastRecords 2 (allRows [⟨[1], [[5]]⟩, ⟨[2], [[6], [7]]⟩]) : Multiset Rec)) :=
  @C1_window_content 2 false [] [⟨[1], [[5]]⟩, ⟨[2], [[6], [7]]⟩]
    ⟨[], [[7], [6]], 1, 0, 0, 1⟩ .emptyBatch
    (by decide) (by decide) (by decide) (by decide)

/-- C2: the window length never exceeds the capacity, after every prefix of
calls it equals `min cap` (records offered so far), and once it reaches the
capacity it never changes again. -/
theorem C2_capacity_bound {cap : Nat} {hasVis : Bool} {sh : List Nat}
    {bs : List Batch} {st : CState} {p : CPath}
    (hcap : 0 < cap) (hsh : 0 < sh.prod) (hwf : ∀ b ∈ bs, b.wf sh)
    (h : runBatches cap hasVis initState bs = .ok st p) :
    st.window.length = min cap (allRows bs).length ∧
    st.window.length ≤ cap ∧
    (∀ bs₁ bs₂, bs = bs₁ ++ bs₂ →
      ∃ st₁ p₁, runBatches cap hasVis initState bs₁ = .ok st₁ p₁ ∧
        st₁.window.length = min cap (allRows bs₁).length ∧
        st₁.window.length ≤ st.window.length ∧
        (st₁.window.length = cap → st.window.length = cap)) := by
  have hG := run_ok_good hcap hsh hwf h
  have h1 := good_window_length hcap hG
  refine ⟨h1, by omega, ?_⟩
  intro bs₁ bs₂ hsplit
  subst hsplit
  obtain ⟨st₁, p₁, h₁, hG₁⟩ := run_good hcap hsh bs₁ initState []
    (good_initState cap hasVis sh hcap) (fun x hx => hwf x (by simp [hx]))
  have hG₁' : Good cap hasVis sh (allRows bs₁) st₁ := by simpa using hG₁
  have h2 := good_window_length hcap hG₁'
  refine ⟨st₁, p₁, h₁, h2, ?_, ?_⟩
  · rw [h1, h2, allRows_append, List.length_append]
    omega
  · intro hfull
    rw [h2] at hfull
    rw [h1, allRows_append, List.length_append]
    omega

/-- C2 witness: capacity 2, three batches totalling 4 records. -/
theorem C2_capacity_bound_witness :
    ((⟨[], [[3], [4]], 0, 0, 0, 1⟩ : CState).window.length
        = min 2 (allRows [⟨[1], [[1]]⟩, ⟨[1], [[2]]⟩, ⟨[2], [[3], [4]]⟩]).length)
    ∧ (⟨[], [[3], [4]], 0, 0, 0, 1⟩ : CState).window.length ≤ 2 :=
  ⟨(@C2_capacity_bound 2 false [] [⟨[1], [[1]]⟩, ⟨[1], [[2]]⟩, ⟨[2], [[3], [4]]⟩]
      ⟨[], [[3], [4]], 0, 0, 0, 1⟩ .emptyBatch
      (by decide) (by decide) (by decide) (by decide)).1,
   (@C2_capacity_bound 2 false [] [⟨[1], [[1]]⟩, ⟨[1], [[2]]⟩, ⟨[2], [[3], [4]]⟩]
      ⟨[], [[3], [4]], 0, 0, 0, 1⟩ .emptyBatch
      (by decide) (by decide) (by decide) (by decide)).2.1⟩

/-- When no batch ever exceeds the capacity, the cursor tracks the total
record count modulo the capacity. -/
theorem run_next_mod {cap : Nat} {hasVis : Bool} {sh : List Nat}
    (hcap : 0 < cap) (hsh : 0 < sh.prod) :
    ∀ (bs : List Batch) (st : CState) (all : List Rec),
      Good cap hasVis sh all st → (∀ b ∈ bs, b.wf sh) →
      (∀ b ∈ bs, b.rows.length ≤ cap) →
      st.next = ((all.length % cap : Nat) : Int) →
      ∀ st' p, runBatches cap hasVis st bs = .ok st' p →
        st'.next = (((all ++ allRows bs).length % cap : Nat) : Int) := by
  intro bs
  induction bs with
  | nil =>
    intro st all hG _ _ hnx st' p h
    obtain ⟨rfl, -⟩ := CResult.ok.inj h
    simpa [allRows] using hnx
  | cons b rest ih =>
    intro st all hG hwf hsmall hnx st' p h
    have hbwf := hwf b (by simp)
    have hbs := hsmall b (by simp)
    obtain ⟨st₁, p₁, hc, hG₁⟩ := good_step hcap hsh hG hbwf
    simp only [runBatches, hc] at h
    have hih := ih st₁ (all ++ b.rows) hG₁
      (fun x hx => hwf x (by simp [hx])) (fun x hx => hsmall x (by simp [hx]))
    have hnx₁ : st₁.next = (((all ++ b.rows).length % cap : Nat) : Int) := by
      rcases eq_or_ne b.rows ([] : List Rec) with hb | hb
      · rw [collect_empty_eval hcap hsh hG hbwf hb] at hc
        obtain ⟨rfl, -⟩ := CResult.ok.inj hc
        simpa [hb] using hnx
      · rw [collect_circular_eval hcap hsh hG hbwf hb hbs] at hc
        obtain ⟨rfl, -⟩ := CResult.ok.inj hc
        have htn : st.next.toNat = all.length % cap := by rw [hnx]; omega
        simp only [htn, List.length_append, Nat.mod_add_mod]
    have := hih hnx₁ st' p h
    rw [allRows, ← List.append_assoc]
    exact this

/-- C3 counterexample: with capacity 2, a single oversized batch of 3
records leaves the window full but the cursor at 0, not `3 % 2 = 1`. -/
theorem C3_counterexample :
    runBatches 2 false initState [⟨[3], [[1], [2], [3]]⟩]
      = .ok ⟨[], [[2], [3]], 0, 0, 0, 1⟩ .emptyBatch
    ∧ (⟨[], [[2], [3]], 0, 0, 0, 1⟩ : CState).window.length = 2
    ∧ ¬ ((⟨[], [[2], [3]], 0, 0, 0, 1⟩ : CState).next
        = (((allRows [⟨[3], [[1], [2], [3]]⟩]).length % 2 : Nat) : Int)) := by
  decide

/-- C3 (amended): after any successful sequence of well-formed batches in
which no batch exceeds the capacity, if the window is full the cursor
equals the total number of offered records modulo the capacity.  (An
oversized batch instead resets the cursor to 0, breaking this relation.) -/
theorem C3_cursor_mod {cap : Nat} {hasVis : Bool} {sh : List Nat}
    {bs : List Batch} {st : CState} {p : CPath}
    (hcap : 0 < cap) (hsh : 0 < sh.prod) (hwf : ∀ b ∈ bs, b.wf sh)
    (hsmall : ∀ b ∈ bs, b.rows.length ≤ cap)
    (h : runBatches cap hasVis initState bs = .ok st p)
    (hfull : st.window.length = cap) :
    st.next = (((allRows bs).length % cap : Nat) : Int) := by
  have := run_next_mod hcap hsh bs initState []
    (good_initState cap hasVis sh hcap) hwf hsmall (by simp [initState]) st p h
  simpa using this

/-- C3 (amended) witness: capacity 2, batches of 1 and 2 records. -/
theorem C3_cursor_mod_witness :
    (⟨[], [[4], [9]], 1, 0, 0, 1⟩ : CState).next
      = (((allRows [⟨[1], [[8]]⟩, ⟨[2], [[9], [4]]⟩]).length % 2 : Nat) : Int) :=
  @C3_cursor_mod 2 false [] [⟨[1], [[8]]⟩, ⟨[2], [[9], [4]]⟩]
    ⟨[], [[4], [9]], 1, 0, 0, 1⟩ .emptyBatch
    (by decide) (by decide) (by decide) (by decide) (by decide) (by decide)

/-- C4: from any reachable state, a batch strictly larger than the capacity
overwrites the whole window with the batch's last `cap` records, placed in
slots `0..cap-1` in order, and resets the cursor to 0; a batch of length
exactly `cap` takes the circular path instead. -/
theorem C4_oversized_batch {cap : Nat} {hasVis : Bool} {sh : List Nat}
    {bs : List Batch} {st : CState} {p : CPath} {b : Batch}
    (hcap : 0 < cap) (hsh : 0 < sh.prod) (hwf : ∀ x ∈ bs, x.wf sh)
    (h : runBatches cap hasVis initState bs = .ok st p) (hbwf : b.wf sh) :
    (cap < b.rows.length →
      collect cap hasVis st b =
        .ok { st with recDims := sh,
                      window := b.rows.drop (b.rows.length - cap),
                      next := 0,
                      numVisited := if hasVis
                        then (((allRows bs).length + b.rows.length : Nat) : Int)
                        else st.numVisited } .overwriteAll
      ∧ (b.rows.drop (b.rows.length - cap)).length = cap)
    ∧ (b.rows.length = cap →
      ∃ st', collect cap hasVis st b = .ok st' .circular) := by
  have hG := run_ok_good hcap hsh hwf h
  constructor
  · intro hlen
    refine ⟨collect_oversized_eval hcap hsh hG hbwf hlen, ?_⟩
    rw [List.length_drop]
    omega
  · intro hlen
    exact ⟨_, collect_circular_eval hcap hsh hG hbwf
      (List.ne_nil_of_length_pos (by omega)) (by omega)⟩

/-- C4 witness: capacity 2 and a 3-record batch on a fresh collector. -/
theorem C4_oversized_batch_witness :
    collect 2 false initState ⟨[3], [[1], [2], [3]]⟩
      = .ok ⟨[], [[2], [3]], 0, 0, 0, 1⟩ .overwriteAll
    ∧ (([[1], [2], [3]] : List Rec).drop (3 - 2)).length = 2 :=
  (@C4_oversized_batch 2 false [] [] initState .emptyBatch ⟨[3], [[1], [2], [3]]⟩
    (by decide) (by decide) (by decide) rfl (by decide)).1 (by decide)

/-- C5: from any reachable state, a non-empty batch of at most `cap` rows
is inserted at `start = cursor` as a first chunk of
`first_chunk = min (len + start) cap - start` records into slots
`[start, start + first_chunk)`, with the remaining `len - first_chunk`
records wrapped into slots `[0, len - first_chunk)`, and the cursor becomes
`(start + len) % cap`. -/
theorem C5_circular_insert {cap : Nat} {hasVis : Bool} {sh : List Nat}
    {bs : List Batch} {st : CState} {p : CPath} {b : Batch}
    (hcap : 0 < cap) (hsh : 0 < sh.prod) (hwf : ∀ x ∈ bs, x.wf sh)
    (h : runBatches cap hasVis initState bs = .ok st p) (hbwf : b.wf sh)
    (hne : b.rows ≠ []) (hlen : b.rows.length ≤ cap) :
    ∃ st', collect cap hasVis st b = .ok st' .circular ∧
      (∀ t, t < min (b.rows.length + st.next.toNat) cap - st.next.toNat →
        st'.window.getD (st.next.toNat + t) [] = b.rows.getD t []) ∧
      (∀ t, t < b.rows.length
            - (min (b.rows.length + st.next.toNat) cap - st.next.toNat) →
        st'.window.getD t [] = b.rows.getD
          ((min (b.rows.length + st.next.toNat) cap - st.next.toNat) + t) []) ∧
      st'.next = (((st.next.toNat + b.rows.length) % cap : Nat) : Int) := by
  have hG := run_ok_good hcap hsh hwf h
  have hm : 0 < b.rows.length := List.length_pos.mpr hne
  have hobs := good_window_length hcap hG
  have hdisj : st.next.toNat = st.window.length ∨ st.window.length = cap := by
    obtain ⟨-, -, -, -, hw⟩ := hG
    rcases Nat.lt_or_ge (allRows bs).length cap with hT | hT
    · rw [if_pos hT] at hw
      left
      rw [hw.1, hw.2]
      omega
    · rw [if_neg (by omega)] at hw
      right
      exact hw.1
  have hcw : st.next.toNat ≤ st.window.length := by
    obtain ⟨-, -, -, -, hw⟩ := hG
    rcases Nat.lt_or_ge (allRows bs).length cap with hT | hT
    · rw [if_pos hT] at hw
      rw [hw.1, hw.2]
      omega
    · rw [if_neg (by omega)] at hw
      rw [hw.1]
      have := hw.2.2.1
      omega
  have hminT : min cap (allRows bs).length = st.window.length := by omega
  refine ⟨_, collect_circular_eval hcap hsh hG hbwf hne hlen, ?_, ?_, rfl⟩
  · intro t ht
    rcases hdisj with hd | hd <;>
    · rw [getD_copyRows, length_copyRows, length_extendTo, hminT,
        if_pos (by omega), if_neg (by omega), getD_copyRows, length_extendTo,
        if_pos (by omega), if_pos (by omega)]
      congr 1
      omega
  · intro t ht
    rcases hdisj with hd | hd <;>
    · rw [getD_copyRows, length_copyRows, length_extendTo, hminT,
        if_pos (by omega), if_pos (by omega)]
      simp

/-- C5 witness: capacity 3, window `[[1],[2]]` with cursor 2, inserting two
records so that one wraps around. -/
theorem C5_circular_insert_witness :
    ∃ st', collect 3 false (⟨[], [[1], [2]], 2, 0, 0, 1⟩ : CState) ⟨[2], [[3], [4]]⟩
      = .ok st' .circular ∧ st'.next = (((2 + 2) % 3 : Nat) : Int) := by
  obtain ⟨st', hc, -, -, hn⟩ :=
    @C5_circular_insert 3 false [] [⟨[2], [[1], [2]]⟩]
      ⟨[], [[1], [2]], 2, 0, 0, 1⟩ .emptyBatch ⟨[2], [[3], [4]]⟩
      (by decide) (by decide) (by decide) (by decide)
      (by decide) (by decide) (by decide)
  exact ⟨st', hc, hn.trans (by decide)⟩

/-- C6: with visited-count storage supplied on every call, the counter
equals the exact total number of records offered, and each call adds
exactly its batch's record count, never decreasing the counter. -/
theorem C6_visited_count {cap : Nat} {sh : List Nat}
    {bs : List Batch} {st : CState} {p : CPath}
    (hcap : 0 < cap) (hsh : 0 < sh.prod) (hwf : ∀ x ∈ bs, x.wf sh)
    (h : runBatches cap true initState bs = .ok st p) :
    st.numVisited = ((allRows bs).length : Int) ∧
    (∀ bs₁ b bs₂, bs = bs₁ ++ b :: bs₂ →
      ∃ st₁ p₁ st₂ p₂,
        runBatches cap true initState bs₁ = .ok st₁ p₁ ∧
        runBatches cap true initState (bs₁ ++ [b]) = .ok st₂ p₂ ∧
        st₂.numVisited = st₁.numVisited + (b.rows.length : Int) ∧
        st₁.numVisited ≤ st₂.numVisited) := by
  have hG := run_ok_good hcap hsh hwf h
  refine ⟨hG.2.2.1 rfl, ?_⟩
  intro bs₁ b bs₂ hsplit
  have hwf₁ : ∀ x ∈ bs₁, x.wf sh := fun x hx => hwf x (by simp [hsplit, hx])
  have hwf₂ : ∀ x ∈ bs₁ ++ [b], x.wf sh := by
    intro x hx
    rcases List.mem_append.mp hx with h1 | h1
    · exact hwf₁ x h1
    · simp at h1
      subst h1
      exact hwf x (by simp [hsplit])
  obtain ⟨st₁, p₁, h₁, hG₁⟩ := run_good hcap hsh bs₁ initState []
    (good_initState cap true sh hcap) hwf₁
  obtain ⟨st₂, p₂, h₂, hG₂⟩ := run_good hcap hsh (bs₁ ++ [b]) initState []
    (good_initState cap true sh hcap) hwf₂
  have hv₁ : st₁.numVisited = ((allRows bs₁).length : Int) := by
    have := hG₁.2.2.1 rfl
    simpa using this
  have hv₂ : st₂.numVisited = ((allRows (bs₁ ++ [b])).length : Int) := by
    have := hG₂.2.2.1 rfl
    simpa using this
  rw [allRows_append] at hv₂
  refine ⟨st₁, p₁, st₂, p₂, h₁, h₂, ?_, ?_⟩
  · rw [hv₁, hv₂]
    simp [allRows]
  · rw [hv₁, hv₂]
    simp [allRows]

/-- C7: an empty batch leaves the window contents, window length, cursor,
and visited count unchanged (only the record shape is fixed), and the
empty-batch path is the only successful path that does not write the
cursor. -/
theorem C7_empty_batch {cap : Nat} {hasVis : Bool} {sh : List Nat}
    {bs : List Batch} {st : CState} {p : CPath} {b : Batch}
    (hcap : 0 < cap) (hsh : 0 < sh.prod) (hwf : ∀ x ∈ bs, x.wf sh)
    (h : runBatches cap hasVis initState bs = .ok st p) (hbwf : b.wf sh) :
    (b.rows = [] →
      collect cap hasVis st b = .ok { st with recDims := sh } .emptyBatch ∧
      ({ st with recDims := sh } : CState).window = st.window ∧
      ({ st with recDims := sh } : CState).next = st.next ∧
      ({ st with recDims := sh } : CState).numVisited = st.numVisited) ∧
    (∀ st' p', collect cap hasVis st b = .ok st' p' →
      (p' = .emptyBatch ↔ b.rows = [])) := by
  have hG := run_ok_good hcap hsh hwf h
  constructor
  · intro hb
    exact ⟨collect_empty_eval hcap hsh hG hbwf hb, rfl, rfl, rfl⟩
  · intro st' p' hc
    rcases eq_or_ne b.rows ([] : List Rec) with hb | hb
    · rw [collect_empty_eval hcap hsh hG hbwf hb] at hc
      obtain ⟨-, h2⟩ := CResult.ok.inj hc
      rw [← h2]
      simp [hb]
    · rcases Nat.lt_or_ge cap b.rows.length with hlen | hlen
      · rw [collect_oversized_eval hcap hsh hG hbwf hlen] at hc
        obtain ⟨-, h2⟩ := CResult.ok.inj hc
        rw [← h2]
        simp [hb]
      · rw [collect_circular_eval hcap hsh hG hbwf hb hlen] at hc
        obtain ⟨-, h2⟩ := CResult.ok.inj hc
        rw [← h2]
        simp [hb]

/-- C6 witness: two batches of 1 and 3 records (the second oversized for
capacity 2) leave the visited count at 4. -/
theorem C6_visited_count_witness :
    (⟨[], [[3], [4]], 0, 0, 4, 1⟩ : CState).numVisited
      = ((allRows [⟨[1], [[1]]⟩, ⟨[3], [[2], [3], [4]]⟩]).length : Int) :=
  (@C6_visited_count 2 [] [⟨[1], [[1]]⟩, ⟨[3], [[2], [3], [4]]⟩]
    ⟨[], [[3], [4]], 0, 0, 4, 1⟩ .emptyBatch
    (by decide) (by decide) (by decide) (by decide)).1

/-- C7 witness: an empty batch on a one-record window changes nothing. -/
theorem C7_empty_batch_witness :
    collect 2 false (⟨[], [[6]], 1, 0, 0, 1⟩ : CState) ⟨[0], []⟩
      = .ok ⟨[], [[6]], 1, 0, 0, 1⟩ .emptyBatch :=
  ((@C7_empty_batch 2 false [] [⟨[1], [[6]]⟩] ⟨[], [[6]], 1, 0, 0, 1⟩
    .emptyBatch ⟨[0], []⟩
    (by decide) (by decide) (by decide) (by decide) (by decide)).1 rfl).1

/-- C8 counterexample: a malformed cursor slot (rank 1 instead of 0) makes
`collect` abort, but only after the visited count has been incremented and
the window grown — the state is not unchanged. -/
theorem C8_counterexample :
    collect 1 true { initState with nextNdim := 1 } ⟨[1], [[5]]⟩
      = .err ⟨[], [[0]], 0, 1, 1, 1⟩
    ∧ ¬ ((⟨[], [[0]], 0, 1, 1, 1⟩ : CState).numVisited
        = ({ initState with nextNdim := 1 } : CState).numVisited)
    ∧ ¬ ((⟨[], [[0]], 0, 1, 1, 1⟩ : CState).window.length
        = ({ initState with nextNdim := 1 } : CState).window.length) := by
  decide

/-- C8 (amended): the checks that precede any mutation — batch rank,
record-shape match, visited-slot size, and a negative visited count on an
initialized window — abort with the state unchanged; the cursor-slot rank
check aborts only after the visited count has been updated and the window
possibly grown. -/
theorem C8_precondition_aborts (cap : Nat) (hasVis : Bool)
    (st : CState) (b : Batch) :
    (b.dims = [] → collect cap hasVis st b = .err st) ∧
    (b.dims ≠ [] → st.isInit = true → st.shapeMatch b = false →
      collect cap hasVis st b = .err st) ∧
    (b.dims ≠ [] → (st.isInit = true → st.shapeMatch b = true) →
      hasVis = true → st.visitedSize ≠ 1 →
      collect cap hasVis st b = .err st) ∧
    (b.dims ≠ [] → st.isInit = true → st.shapeMatch b = true →
      hasVis = true → st.visitedSize = 1 → st.numVisited < 0 →
      collect cap hasVis st b = .err st) ∧
    (st.isInit = true → st.shapeMatch b = true →
      (hasVis = true → st.visitedSize = 1 ∧ 0 ≤ st.numVisited) →
      b.dims.headD 0 ≠ 0 → st.nextNdim ≠ 0 →
      ∃ st', collect cap hasVis st b = .err st' ∧
        st'.next = st.next ∧
        st'.numVisited = (if hasVis
          then st.numVisited + (b.dims.headD 0 : Int) else st.numVisited) ∧
        st'.window.length
          = max st.window.length (min cap (st.window.length + min (b.dims.headD 0) cap))) ∧
    (st.isInit = true → st.shapeMatch b = true →
      (hasVis = true → st.visitedSize = 1 ∧ 0 ≤ st.numVisited) →
      b.dims.headD 0 ≠ 0 → st.nextNdim = 0 →
      ((max st.window.length
          (min cap (st.window.length + min (b.dims.headD 0) cap)) : Nat) : Int)
        ≤ st.next →
      ∃ st', collect cap hasVis st b = .err st' ∧
        st'.next = st.next ∧
        st'.numVisited = (if hasVis
          then st.numVisited + (b.dims.headD 0 : Int) else st.numVisited) ∧
        st'.window.length
          = max st.window.length (min cap (st.window.length + min (b.dims.headD 0) cap))) := by
  have hd1 : b.dims ≠ [] → ¬ (b.dims.length < 1) := by
    intro hd
    rcases hdd : b.dims with - | ⟨x, xs⟩
    · exact absurd hdd hd
    · simp
  refine ⟨?_, ?_, ?_, ?_, ?_, ?_⟩
  · intro hd
    simp [collect, hd]
  · intro hd hInit hsm
    simp [collect, hd1 hd, hInit, hsm]
  · intro hd hsm hv hvs
    cases hI : st.isInit with
    | false => simp [collect, hd1 hd, hI, hv, hvs]
    | true => simp [collect, hd1 hd, hI, hsm hI, hv, hvs]
  · intro hd hInit hsm hv hvs hneg
    simp [collect, hd1 hd, hInit, hsm, hvs, hv, hneg]
  · intro hInit hsm hvis hne hnn
    have hd : ¬ (b.dims.length < 1) := by
      apply hd1
      intro hdd
      rw [hdd] at hne
      simp at hne
    refine ⟨{ st with
        window := if st.window.length
            < min cap (st.window.length + min (b.dims.headD 0) cap)
          then extendTo st.window
            (min cap (st.window.length + min (b.dims.headD 0) cap)) st.recDims
          else st.window,
        numVisited := if hasVis then st.numVisited + (b.dims.headD 0 : Int)
          else st.numVisited }, ?_, rfl, rfl, ?_⟩
    · have hne2 : b.dims.head?.getD 0 ≠ 0 := by simpa using hne
      cases hv : hasVis with
      | true =>
        obtain ⟨h1, h2⟩ := hvis hv
        simp [collect, hd, hInit, hsm, h1, Int.not_lt.mpr h2, hne2, hnn]
      | false =>
        simp [collect, hd, hInit, hsm, hne2, hnn]
    · split
      · rw [length_extendTo]
      · show st.window.length
          = max st.window.length (min cap (st.window.length + min (b.dims.headD 0) cap))
        omega
  · intro hInit hsm hvis hne hnn0 hbound
    have hd : ¬ (b.dims.length < 1) := by
      apply hd1
      intro hdd
      rw [hdd] at hne
      simp at hne
    refine ⟨{ st with
        window := if st.window.length
            < min cap (st.window.length + min (b.dims.headD 0) cap)
          then extendTo st.window
            (min cap (st.window.length + min (b.dims.headD 0) cap)) st.recDims
          else st.window,
        numVisited := if hasVis then st.numVisited + (b.dims.headD 0 : Int)
          else st.numVisited }, ?_, rfl, rfl, ?_⟩
    · have hne2 : b.dims.head?.getD 0 ≠ 0 := by simpa using hne
      have hgd : b.dims.headD 0 = b.dims.head?.getD 0 := by cases b.dims <;> rfl
      rw [hgd] at hbound
      cases hv : hasVis with
      | true =>
        obtain ⟨h1, h2⟩ := hvis hv
        simp [collect, hd, hInit, hsm, h1, Int.not_lt.mpr h2, hne2, hnn0]
        intro hcon
        exfalso
        split at hcon
        · rw [length_extendTo] at hcon
          omega
        · omega
      | false =>
        simp [collect, hd, hInit, hsm, hne2, hnn0]
        intro hcon
        exfalso
        split at hcon
        · rw [length_extendTo] at hcon
          omega
        · omega
    · split
      · rw [length_extendTo]
      · show st.window.length
          = max st.window.length (min cap (st.window.length + min (b.dims.headD 0) cap))
        omega
/-- C8 (amended) witness: a visited-count slot of size 5 aborts the call
with the state unchanged, and a cursor of 5 on a 1-slot window fails the
cursor-bound check with the cursor and (untracked) visited count intact. -/
theorem C8_precondition_aborts_witness :
    (collect 2 true (⟨[], [[1]], 1, 0, 1, 5⟩ : CState) ⟨[1], [[2]]⟩
      = .err ⟨[], [[1]], 1, 0, 1, 5⟩)
    ∧ ∃ st', collect 1 false (⟨[], [[7]], 5, 0, 0, 1⟩ : CState) ⟨[1], [[8]]⟩
        = .err st' ∧ st'.next = 5 ∧ st'.numVisited = 0 ∧ st'.window.length = 1 :=
  ⟨(C8_precondition_aborts 2 true ⟨[], [[1]], 1, 0, 1, 5⟩ ⟨[1], [[2]]⟩).2.2.1
      (by decide) (by decide) rfl (by decide),
   (C8_precondition_aborts 1 false ⟨[], [[7]], 5, 0, 0, 1⟩ ⟨[1], [[8]]⟩).2.2.2.2.2
      (by decide) (by decide) (by decide) (by decide) rfl (by decide)⟩

/-- C9: from any reachable state, every record copy stays within the
post-growth window length, and in the circular case the two copies target
disjoint slot ranges (the wraparound chunk `[0, len - first_chunk)` ends at
or before `start`, where the first chunk begins). -/
theorem C9_copy_bounds {cap : Nat} {hasVis : Bool} {sh : List Nat}
    {bs : List Batch} {st : CState} {p : CPath} {b : Batch}
    (hcap : 0 < cap) (hsh : 0 < sh.prod) (hwf : ∀ x ∈ bs, x.wf sh)
    (h : runBatches cap hasVis initState bs = .ok st p) (hbwf : b.wf sh)
    (hne : b.rows ≠ []) :
    (cap < b.rows.length →
      ∃ st', collect cap hasVis st b = .ok st' .overwriteAll ∧
        0 + min b.rows.length cap ≤ st'.window.length) ∧
    (b.rows.length ≤ cap →
      ∃ st', collect cap hasVis st b = .ok st' .circular ∧
        st.next.toNat
            + (min (b.rows.length + st.next.toNat) cap - st.next.toNat)
          ≤ st'.window.length ∧
        b.rows.length
            - (min (b.rows.length + st.next.toNat) cap - st.next.toNat)
          ≤ st'.window.length ∧
        b.rows.length
            - (min (b.rows.length + st.next.toNat) cap - st.next.toNat)
          ≤ st.next.toNat) := by
  have hG := run_ok_good hcap hsh hwf h
  have hm : 0 < b.rows.length := List.length_pos.mpr hne
  have hobs := good_window_length hcap hG
  have hdisj : st.next.toNat = st.window.length ∨ st.window.length = cap := by
    obtain ⟨-, -, -, -, hw⟩ := hG
    rcases Nat.lt_or_ge (allRows bs).length cap with hT | hT
    · rw [if_pos hT] at hw
      left
      rw [hw.1, hw.2]
      omega
    · rw [if_neg (by omega)] at hw
      right
      exact hw.1
  have hcw : st.next.toNat ≤ st.window.length := by
    obtain ⟨-, -, -, -, hw⟩ := hG
    rcases Nat.lt_or_ge (allRows bs).length cap with hT | hT
    · rw [if_pos hT] at hw
      rw [hw.1, hw.2]
      omega
    · rw [if_neg (by omega)] at hw
      rw [hw.1]
      have := hw.2.2.1
      omega
  have hminT : min cap (allRows bs).length = st.window.length := by omega
  constructor
  · intro hlen
    refine ⟨_, collect_oversized_eval hcap hsh hG hbwf hlen, ?_⟩
    rw [List.length_drop]
    omega
  · intro hlen
    refine ⟨_, collect_circular_eval hcap hsh hG hbwf hne hlen, ?_, ?_, ?_⟩
    · rw [length_copyRows, length_copyRows, length_extendTo, hminT]
      rcases hdisj with hd | hd <;> omega
    · rw [length_copyRows, length_copyRows, length_extendTo, hminT]
      rcases hdisj with hd | hd <;> omega
    · omega

/-- C9 witness: capacity 3, cursor 2, two-record batch with wraparound:
first chunk `[2, 3)`, wraparound chunk `[0, 1)`, both in bounds, disjoint. -/
theorem C9_copy_bounds_witness :
    ∃ st', collect 3 false (⟨[], [[1], [2]], 2, 0, 0, 1⟩ : CState) ⟨[2], [[3], [4]]⟩
      = .ok st' .circular ∧
      (2 : Int).toNat + (min (2 + (2 : Int).toNat) 3 - (2 : Int).toNat)
        ≤ st'.window.length ∧
      2 - (min (2 + (2 : Int).toNat) 3 - (2 : Int).toNat) ≤ st'.window.length ∧
      2 - (min (2 + (2 : Int).toNat) 3 - (2 : Int).toNat) ≤ (2 : Int).toNat :=
  (@C9_copy_bounds 3 false [] [⟨[2], [[1], [2]]⟩]
    ⟨[], [[1], [2]], 2, 0, 0, 1⟩ .emptyBatch ⟨[2], [[3], [4]]⟩
    (by decide) (by decide) (by decide) (by decide)
    (by decide) (by decide)).2 (by decide)

end LastN
